import Mathlib

/-!
Shallow embedding of `indexer.py`: a single-pass file indexer that walks a
directory tree, computes an MD5 content hash per file, classifies each file
into a coarse category, and records new files in a PostgreSQL table
`indexed_files` whose `md5_hash` column is UNIQUE.

Modelling conventions:
* A file's byte content is a `List Nat`; the MD5 digest is an abstract
  parameter `hfn : List Nat → String` (every claim below is insensitive to the
  concrete digest, only to the fact that it is a function of the content).
* A read failure inside `_calculate_md5` (caught by its broad `except`, which
  makes it return `None`) is modelled by the file's content being `none`.
* A compiled regular expression is modelled by its `search` function
  `String → Bool`; `re.compile` is an abstract parameter `String → α`
  where the pattern type is abstract.
* Python string operations: `needle in hay` is substring containment on the
  character lists (`pyIn`), `.lower()` maps `Char.toLower` over the characters
  (`pyLower`), `.strip()` drops whitespace from both ends (`pyStrip`).
* The database connection is a record of the two statements the walk issues
  (`SELECT ... WHERE md5_hash = %s` and `INSERT ...`); a psycopg2 exception
  raised by a statement is an `Except.error`.  `_index_directory` wraps no
  statement in `try/except`, so in the embedding a statement error aborts the
  recursion exactly where the Python exception would propagate.
* The walk (`os.walk`) is abstracted to the list of files it yields, in walk
  order; each `FileEntry` carries the data the source reads from the
  filesystem (base name, joined path, `os.path.getsize`, content).
-/

/-- A persisted row of the `indexed_files` table (the columns the program
writes; `id` and `date_indexed` are store-assigned and never read back). -/
structure Row where
  file_name : String
  path : String
  md5_hash : String
  file_size : Nat
  category : String
  deriving DecidableEq, Repr

/-- A file yielded by the walk: base name, full path, size, and its byte
content (`none` models a file whose bytes cannot be read, which makes
`_calculate_md5` return `None`). -/
structure FileEntry where
  file_name : String
  path : String
  size : Nat
  content : Option (List Nat)
  deriving DecidableEq, Repr

/-- Python's `needle in hay` on strings: substring containment. -/
def pyIn (needle hay : String) : Bool :=
  decide (needle.data <:+: hay.data)

/-- Python's `s.lower()`: lowercase each character. -/
def pyLower (s : String) : String :=
  String.mk (s.data.map Char.toLower)

/-- Python's `s.strip()`: drop whitespace from both ends. -/
def pyStrip (s : String) : String :=
  String.mk (((s.data.dropWhile Char.isWhitespace).reverse.dropWhile Char.isWhitespace).reverse)

/-- `_calculate_md5`: streams the file and returns the hex digest, or `None`
when any exception is raised while reading (broad `except` in the source).
The digest function itself is the abstract parameter `hfn`. -/
def calculate_md5 (hfn : List Nat → String) (content : Option (List Nat)) : Option String :=
  content.map hfn

/-- The path-keyword table of `_detect_category`, in the source's dict
insertion order (Python dicts iterate in insertion order). -/
def categories : List (String × List String) :=
  [("movie", ["movie", "movies"]),
   ("tv show", ["tv", "show", "shows", "series"]),
   ("book", ["book", "books"]),
   ("audiobook", ["audiobook", "audiobooks"])]

/-- The extension table of `_detect_category`, in insertion order. -/
def extension_categories : List (String × List String) :=
  [("audio", [".mp3", ".wav", ".flac"]),
   ("video", [".mp4", ".avi", ".mkv", ".mov"]),
   ("picture", [".jpg", ".jpeg", ".png", ".gif", ".bmp"]),
   ("plaintext", [".txt", ".md", ".log"]),
   ("document", [".pdf", ".doc", ".docx", ".xls", ".xlsx", ".ppt", ".pptx"])]

/-- `_detect_category`: first loop returns the first category one of whose
keywords is a substring of the lowercased path; otherwise the second loop
returns the first category whose extension list contains the lowercased
extension; otherwise `"other"`. Each `for`-loop with an early `return` over a
fixed table is `List.find?`. -/
def detect_category (file_path file_extension : String) : String :=
  match categories.find? (fun ck => ck.2.any (fun kw => pyIn kw (pyLower file_path))) with
  | some ck => ck.1
  | none =>
    match extension_categories.find? (fun ce => ce.2.contains (pyLower file_extension)) with
    | some ce => ce.1
    | none => "other"

/-- `os.path.splitext(name)[1]`: the extension starts at the last dot that is
preceded (anywhere in the name) by a non-dot character; a name of leading dots
only has no extension. `acc` is the current candidate suffix, `seen` records
whether a non-dot character has occurred. -/
def splitext_go (seen : Bool) (acc : Option (List Char)) : List Char → Option (List Char)
  | [] => acc
  | c :: cs =>
    if c = '.' then
      if seen then splitext_go seen (some (c :: cs)) cs
      else splitext_go seen acc cs
    else splitext_go true acc cs

/-- The extension component of `os.path.splitext` applied to a base name. -/
def splitext_ext (name : String) : String :=
  match splitext_go false none name.data with
  | none => ""
  | some l => String.mk l

/-- `_should_exclude`: true iff some compiled pattern's `search` matches the
full path. -/
def should_exclude (file_path : String) (exclude_patterns : List (String → Bool)) : Bool :=
  exclude_patterns.any (fun p => p file_path)

/-- `_load_exclusion_patterns`: the pattern file is `none` when
`os.path.exists` is false, `some (.error _)` when opening/reading it raises
(caught, logged, falls through to `return []`), and `some (.ok lines)` when it
yields these raw lines.  Each line with non-blank strip is compiled. -/
def load_exclusion_patterns (re_compile : String → α)
    (pattern_file : Option (Except Unit (List String))) : List α :=
  match pattern_file with
  | none => []
  | some (.error _) => []
  | some (.ok lines) =>
    (lines.filter (fun line => pyStrip line != "")).map (fun line => re_compile (pyStrip line))

/-- A psycopg2 exception raised by a statement: the UNIQUE-violation
(`IntegrityError` on `md5_hash`) or any other database error. -/
inductive DBErr where
  | constraintViolation
  | otherError
  deriving DecidableEq, Repr

/-- Observable actions of a run, in the order they are performed.  The first
three carry the path of the file they concern. -/
inductive Ev where
  | hashed (path : String)
  | lookedUp (path : String)
  | inserted (path : String)
  | schemaCreated
  | schemaError
  | patternsLoaded
  | closed
  deriving DecidableEq, Repr

/-- The database connection as seen by `_index_directory`: the `SELECT`
returning the first row whose `md5_hash` matches, and the `INSERT` (with its
commit), which may raise.  The state type `σ` is abstract so that a store
modified between the `SELECT` and the `INSERT` (a concurrent indexer, the race
the spec describes) is expressible; `pgStore` below is the single-writer
instance. -/
structure Connection (σ : Type) where
  select_by_hash : σ → String → Option Row
  insert_row : σ → Row → Except DBErr σ

/-- Prepend one event to a run result. -/
def consTrace (ev : Ev) (p : List Ev × β) : List Ev × β :=
  (ev :: p.1, p.2)

/-- Record a freshly inserted row in front of a run result's insert list. -/
def consIns (row : Row) (p : List Ev × Except DBErr (σ × List Row)) :
    List Ev × Except DBErr (σ × List Row) :=
  (p.1, p.2.map (fun x => (x.1, row :: x.2)))

/-- `_index_directory`, per file in walk order: skip the pattern file by name;
skip excluded paths; compute the hash (`None` → log and `continue`); `SELECT`
by hash and skip on a hit; otherwise categorize and `INSERT`.  Neither
statement is inside a `try/except`, so a statement error ends the walk right
there (the Python exception propagates out of the function); the returned
rows are the `file_index` list of successfully inserted entries. -/
def index_directory (conn : Connection σ) (hfn : List Nat → String)
    (exclude_patterns : List (String → Bool)) :
    σ → List FileEntry → List Ev × Except DBErr (σ × List Row)
  | st, [] => ([], .ok (st, []))
  | st, e :: rest =>
    if e.file_name == ".exclude_patterns" then
      index_directory conn hfn exclude_patterns st rest
    else if should_exclude e.path exclude_patterns then
      index_directory conn hfn exclude_patterns st rest
    else
      match calculate_md5 hfn e.content with
      | none =>
        consTrace (.hashed e.path) (index_directory conn hfn exclude_patterns st rest)
      | some h =>
        match conn.select_by_hash st h with
        | some _ =>
          consTrace (.hashed e.path) (consTrace (.lookedUp e.path)
            (index_directory conn hfn exclude_patterns st rest))
        | none =>
          match conn.insert_row st
              ⟨e.file_name, e.path, h, e.size,
                detect_category e.path (splitext_ext e.file_name)⟩ with
          | .error err => ([.hashed e.path, .lookedUp e.path], .error err)
          | .ok st₂ =>
            consTrace (.hashed e.path) (consTrace (.lookedUp e.path)
              (consTrace (.inserted e.path)
                (consIns ⟨e.file_name, e.path, h, e.size,
                    detect_category e.path (splitext_ext e.file_name)⟩
                  (index_directory conn hfn exclude_patterns st₂ rest))))

/-- The actual single-writer store: state is the table contents; `SELECT`
scans for the hash; `INSERT` appends, enforcing the UNIQUE constraint on
`md5_hash` by raising `constraintViolation` when the hash is present. -/
def pgStore : Connection (List Row) where
  select_by_hash := fun st h => st.find? (fun r => r.md5_hash == h)
  insert_row := fun st r =>
    if st.any (fun r₂ => r₂.md5_hash == r.md5_hash) then .error .constraintViolation
    else .ok (st ++ [r])

/-- A connection in which the `SELECT` misses but the `INSERT` hits the UNIQUE
constraint: the race the spec describes, where a concurrent indexer inserts
the hash between this run's check and its insert. -/
def racedConn : Connection Unit where
  select_by_hash := fun _ _ => none
  insert_row := fun _ _ => .error .constraintViolation

/-- `_create_database`: the `CREATE TABLE IF NOT EXISTS` is wrapped in a
`try/except` that logs the failure at critical severity and returns normally,
so the caller continues either way; only the logged event differs. -/
def create_database (schema_result : Except Unit Unit) : List Ev :=
  match schema_result with
  | .ok _ => [Ev.schemaCreated]
  | .error _ => [Ev.schemaError]

/-- Outcome of a whole run of `indexer`. -/
inductive RunOutcome where
  | completed (count : Nat)
  | connectAborted
  | raised (e : DBErr)
  deriving DecidableEq, Repr

/-- `indexer(directory)`: connect (failure → log critical and `return`);
create the table; load exclusion patterns; index the directory; then
`connection.close()`.  The `close` is a plain final statement — there is no
`try/finally` or `with` block — so it runs only when `_index_directory`
returns normally; an exception from the walk propagates out of `indexer`
without closing. -/
def indexer (connect : Except Unit (Connection σ × σ))
    (schema_result : Except Unit Unit) (re_compile : String → (String → Bool))
    (pattern_file : Option (Except Unit (List String)))
    (hfn : List Nat → String) (files : List FileEntry) : List Ev × RunOutcome :=
  match connect with
  | .error _ => ([], .connectAborted)
  | .ok (conn, st) =>
    let schemaEv := create_database schema_result
    let pats := load_exclusion_patterns re_compile pattern_file
    match index_directory conn hfn pats st files with
    | (tr, .error e) => (schemaEv ++ Ev.patternsLoaded :: tr, .raised e)
    | (tr, .ok (_, ins)) =>
      (schemaEv ++ Ev.patternsLoaded :: tr ++ [Ev.closed], .completed ins.length)

-- Quick sanity checks on the categorizer embedding.
example : detect_category "/srv/Movies/x.txt" ".txt" = "movie" := by decide
example : detect_category "/data/x/f" ".mp3" = "audio" := by decide
example : detect_category "/data/x/f" ".unknownext" = "other" := by decide
example : splitext_ext "a.tar.gz" = ".gz" := by decide
example : splitext_ext ".bashrc" = "" := by decide

/-- Substring containment is transitive. -/
lemma pyIn_trans {a b c : String} (h₁ : pyIn a b = true) (h₂ : pyIn b c = true) :
    pyIn a c = true := by
  simp only [pyIn, decide_eq_true_eq] at h₁ h₂ ⊢
  exact h₁.trans h₂

/-- CLAIM C6: `_detect_category` is pure (same inputs, same category), and a
path whose lowercased form contains `"movies"` is categorized `"movie"`
whatever the extension, because the path-keyword loop runs first and the
`"movie"` entry is its first entry. -/
theorem detect_category_pure_and_movies (p e : String) :
    detect_category p e = detect_category p e ∧
    (pyIn "movies" (pyLower p) = true → detect_category p e = "movie") := by
  refine ⟨rfl, fun h => ?_⟩
  unfold detect_category
  simp [categories, h]

/-- Witness for C6 at a concrete input. -/
theorem detect_category_pure_and_movies_witness :
    pyIn "movies" (pyLower "/srv/Movies/x.bin") = true ∧
    detect_category "/srv/Movies/x.bin" ".bin" = "movie" :=
  ⟨by decide, (detect_category_pure_and_movies "/srv/Movies/x.bin" ".bin").2 (by decide)⟩

/-- If the path-keyword loop finds no category, `_detect_category` is decided
by the extension table alone. -/
lemma detect_category_no_keyword (p ext : String)
    (h : ∀ ck ∈ categories, ∀ kw ∈ ck.2, pyIn kw (pyLower p) = false) :
    detect_category p ext =
      match extension_categories.find? (fun ce => ce.2.contains (pyLower ext)) with
      | some ce => ce.1
      | none => "other" := by
  unfold detect_category
  have hnone : categories.find? (fun ck => ck.2.any fun kw => pyIn kw (pyLower p)) = none := by
    rw [List.find?_eq_none]
    intro x hx hany
    obtain ⟨kw, hkw, hpy⟩ := List.any_eq_true.mp hany
    rw [h x hx kw hkw] at hpy
    exact Bool.false_ne_true hpy
  rw [hnone]

/-- CLAIM C7: with no category keyword in the lowercased path, extension
`".mp3"` categorizes as `"audio"` and `".unknownext"` as `"other"`. -/
theorem detect_category_extension_phase (p : String)
    (h : ∀ ck ∈ categories, ∀ kw ∈ ck.2, pyIn kw (pyLower p) = false) :
    detect_category p ".mp3" = "audio" ∧ detect_category p ".unknownext" = "other" := by
  rw [detect_category_no_keyword p ".mp3" h, detect_category_no_keyword p ".unknownext" h]
  exact ⟨by decide, by decide⟩

/-- Witness for C7 at a concrete input. -/
theorem detect_category_extension_phase_witness :
    (∀ ck ∈ categories, ∀ kw ∈ ck.2, pyIn kw (pyLower "/q/zz") = false) ∧
    detect_category "/q/zz" ".mp3" = "audio" ∧
    detect_category "/q/zz" ".unknownext" = "other" :=
  ⟨by decide, detect_category_extension_phase "/q/zz" (by decide)⟩

/-- The path-keyword loop never selects the `"audiobook"` entry: both its
keywords contain `"book"`, so the `"book"` entry, iterated earlier, already
matches. -/
lemma find_cat_not_audiobook (l : String) (ck : String × List String)
    (hf : categories.find? (fun ck => ck.2.any fun kw => pyIn kw l) = some ck) :
    ck.1 ≠ "audiobook" := by
  simp only [categories, List.find?_cons, List.any_cons, List.any_nil] at hf
  split at hf
  · cases hf; decide
  · split at hf
    · cases hf; decide
    · split at hf
      · cases hf; decide
      · split at hf
        · rename_i v₁ hmovie v₂ htv v₃ hbook v₄ haudio
          rw [Bool.or_false] at haudio
          rcases Bool.or_eq_true_iff.mp haudio with h | h
          · rw [pyIn_trans (by decide) h] at hbook
            simp at hbook
          · rw [pyIn_trans (by decide) h] at hbook
            simp at hbook
        · cases hf

/-- CLAIM C10: `_detect_category` never returns `"audiobook"`, for any input:
the `"book"` entry precedes `"audiobook"` in iteration order and every
`"audiobook"`/`"audiobooks"` keyword occurrence contains `"book"`, and the
extension table has no `"audiobook"` entry. -/
theorem detect_category_never_audiobook (p e : String) :
    detect_category p e ≠ "audiobook" := by
  unfold detect_category
  rcases hf : categories.find? (fun ck => ck.2.any fun kw => pyIn kw (pyLower p)) with _ | ck
  · simp only [hf]
    rcases hg : extension_categories.find? (fun ce => ce.2.contains (pyLower e)) with _ | ce
    · rw [hg]
      decide
    · rw [hg]
      have hce := List.mem_of_find?_eq_some hg
      simp only [extension_categories, List.mem_cons, List.not_mem_nil, or_false] at hce
      rcases hce with h | h | h | h | h <;> subst h <;> decide
  · simp only [hf]
    exact find_cat_not_audiobook (pyLower p) ck hf

/-! Step equations for `index_directory`, one per branch of the per-file
control flow. -/

lemma index_directory_nil (conn : Connection σ) (hfn : List Nat → String)
    (pats : List (String → Bool)) (st : σ) :
    index_directory conn hfn pats st [] = ([], .ok (st, [])) := rfl

lemma index_directory_cons_skipname (conn : Connection σ) (hfn : List Nat → String)
    (pats : List (String → Bool)) (st : σ) (e : FileEntry) (rest : List FileEntry)
    (h : e.file_name = ".exclude_patterns") :
    index_directory conn hfn pats st (e :: rest) = index_directory conn hfn pats st rest := by
  simp [index_directory, h]

lemma index_directory_cons_skipexcl (conn : Connection σ) (hfn : List Nat → String)
    (pats : List (String → Bool)) (st : σ) (e : FileEntry) (rest : List FileEntry)
    (h₁ : e.file_name ≠ ".exclude_patterns") (h₂ : should_exclude e.path pats = true) :
    index_directory conn hfn pats st (e :: rest) = index_directory conn hfn pats st rest := by
  simp [index_directory, h₁, h₂]

lemma index_directory_cons_hashfail (conn : Connection σ) (hfn : List Nat → String)
    (pats : List (String → Bool)) (st : σ) (e : FileEntry) (rest : List FileEntry)
    (h₁ : e.file_name ≠ ".exclude_patterns") (h₂ : should_exclude e.path pats = false)
    (h₃ : e.content = none) :
    index_directory conn hfn pats st (e :: rest) =
      consTrace (.hashed e.path) (index_directory conn hfn pats st rest) := by
  simp [index_directory, h₁, h₂, h₃, calculate_md5]

lemma index_directory_cons_found (conn : Connection σ) (hfn : List Nat → String)
    (pats : List (String → Bool)) (st : σ) (e : FileEntry) (rest : List FileEntry)
    (c : List Nat) (r : Row)
    (h₁ : e.file_name ≠ ".exclude_patterns") (h₂ : should_exclude e.path pats = false)
    (h₃ : e.content = some c) (h₄ : conn.select_by_hash st (hfn c) = some r) :
    index_directory conn hfn pats st (e :: rest) =
      consTrace (.hashed e.path) (consTrace (.lookedUp e.path)
        (index_directory conn hfn pats st rest)) := by
  simp [index_directory, h₁, h₂, h₃, h₄, calculate_md5]

lemma index_directory_cons_insert_err (conn : Connection σ) (hfn : List Nat → String)
    (pats : List (String → Bool)) (st : σ) (e : FileEntry) (rest : List FileEntry)
    (c : List Nat) (err : DBErr)
    (h₁ : e.file_name ≠ ".exclude_patterns") (h₂ : should_exclude e.path pats = false)
    (h₃ : e.content = some c) (h₄ : conn.select_by_hash st (hfn c) = none)
    (h₅ : conn.insert_row st
        ⟨e.file_name, e.path, hfn c, e.size,
          detect_category e.path (splitext_ext e.file_name)⟩ = .error err) :
    index_directory conn hfn pats st (e :: rest) =
      ([.hashed e.path, .lookedUp e.path], .error err) := by
  simp [index_directory, h₁, h₂, h₃, h₄, h₅, calculate_md5]

lemma index_directory_cons_insert_ok (conn : Connection σ) (hfn : List Nat → String)
    (pats : List (String → Bool)) (st st₂ : σ) (e : FileEntry) (rest : List FileEntry)
    (c : List Nat)
    (h₁ : e.file_name ≠ ".exclude_patterns") (h₂ : should_exclude e.path pats = false)
    (h₃ : e.content = some c) (h₄ : conn.select_by_hash st (hfn c) = none)
    (h₅ : conn.insert_row st
        ⟨e.file_name, e.path, hfn c, e.size,
          detect_category e.path (splitext_ext e.file_name)⟩ = .ok st₂) :
    index_directory conn hfn pats st (e :: rest) =
      consTrace (.hashed e.path) (consTrace (.lookedUp e.path) (consTrace (.inserted e.path)
        (consIns ⟨e.file_name, e.path, hfn c, e.size,
            detect_category e.path (splitext_ext e.file_name)⟩
          (index_directory conn hfn pats st₂ rest)))) := by
  simp [index_directory, h₁, h₂, h₃, h₄, h₅, calculate_md5]

/-- With the single-writer store, the check-then-insert discipline means the
`INSERT` never hits the UNIQUE constraint: every run returns normally, and the
final table is the initial one extended by the newly inserted rows in order. -/
lemma pg_run_ok (hfn : List Nat → String) (pats : List (String → Bool)) :
    ∀ (files : List FileEntry) (st : List Row),
      ∃ tr ins, index_directory pgStore hfn pats st files = (tr, .ok (st ++ ins, ins)) := by
  intro files
  induction files with
  | nil =>
    intro st
    exact ⟨[], [], by simp [index_directory_nil]⟩
  | cons e rest ih =>
    intro st
    by_cases h₁ : e.file_name = ".exclude_patterns"
    · obtain ⟨tr, ins, hrun⟩ := ih st
      exact ⟨tr, ins, by rw [index_directory_cons_skipname pgStore hfn pats st e rest h₁, hrun]⟩
    · by_cases h₂ : should_exclude e.path pats = true
      · obtain ⟨tr, ins, hrun⟩ := ih st
        exact ⟨tr, ins, by rw [index_directory_cons_skipexcl pgStore hfn pats st e rest h₁ h₂, hrun]⟩
      · have h₂f : should_exclude e.path pats = false := by simpa using h₂
        cases h₃ : e.content with
        | none =>
          obtain ⟨tr, ins, hrun⟩ := ih st
          refine ⟨.hashed e.path :: tr, ins, ?_⟩
          rw [index_directory_cons_hashfail pgStore hfn pats st e rest h₁ h₂f h₃, hrun]
          rfl
        | some c =>
          cases h₄ : pgStore.select_by_hash st (hfn c) with
          | some r =>
            obtain ⟨tr, ins, hrun⟩ := ih st
            refine ⟨.hashed e.path :: .lookedUp e.path :: tr, ins, ?_⟩
            rw [index_directory_cons_found pgStore hfn pats st e rest c r h₁ h₂f h₃ h₄, hrun]
            rfl
          | none =>
            have hnone : ∀ r ∈ st, ¬(r.md5_hash == hfn c) := by
              intro r hr
              exact List.find?_eq_none.mp h₄ r hr
            have hins : pgStore.insert_row st
                ⟨e.file_name, e.path, hfn c, e.size,
                  detect_category e.path (splitext_ext e.file_name)⟩ =
                .ok (st ++ [⟨e.file_name, e.path, hfn c, e.size,
                  detect_category e.path (splitext_ext e.file_name)⟩]) := by
              simp only [pgStore]
              rw [if_neg]
              simp only [List.any_eq_true, not_exists]
              intro r hr
              exact hnone r hr.1 hr.2
            obtain ⟨tr, ins, hrun⟩ := ih (st ++ [⟨e.file_name, e.path, hfn c, e.size,
              detect_category e.path (splitext_ext e.file_name)⟩])
            refine ⟨.hashed e.path :: .lookedUp e.path :: .inserted e.path :: tr,
              ⟨e.file_name, e.path, hfn c, e.size,
                detect_category e.path (splitext_ext e.file_name)⟩ :: ins, ?_⟩
            rw [index_directory_cons_insert_ok pgStore hfn pats st _ e rest c h₁ h₂f h₃ h₄ hins,
              hrun]
            simp [consTrace, consIns, Except.map]

/-- A statement error in the first part of the walk cuts the whole walk off
right there: nothing after it is visited. -/
lemma index_directory_append_err (conn : Connection σ) (hfn : List Nat → String)
    (pats : List (String → Bool)) :
    ∀ (as : List FileEntry) (st : σ) (bs : List FileEntry) (t₁ : List Ev) (err : DBErr),
      index_directory conn hfn pats st as = (t₁, .error err) →
      index_directory conn hfn pats st (as ++ bs) = (t₁, .error err) := by
  intro as
  induction as with
  | nil =>
    intro st bs t₁ err h
    rw [index_directory_nil] at h
    simp at h
  | cons e rest ih =>
    intro st bs t₁ err h
    by_cases h₁ : e.file_name = ".exclude_patterns"
    · rw [index_directory_cons_skipname conn hfn pats st e rest h₁] at h
      rw [List.cons_append, index_directory_cons_skipname conn hfn pats st e (rest ++ bs) h₁]
      exact ih st bs t₁ err h
    · by_cases h₂ : should_exclude e.path pats = true
      · rw [index_directory_cons_skipexcl conn hfn pats st e rest h₁ h₂] at h
        rw [List.cons_append, index_directory_cons_skipexcl conn hfn pats st e (rest ++ bs) h₁ h₂]
        exact ih st bs t₁ err h
      · have h₂f : should_exclude e.path pats = false := by simpa using h₂
        cases h₃ : e.content with
        | none =>
          rw [index_directory_cons_hashfail conn hfn pats st e rest h₁ h₂f h₃] at h
          rw [List.cons_append, index_directory_cons_hashfail conn hfn pats st e (rest ++ bs) h₁ h₂f h₃]
          rcases hr : index_directory conn hfn pats st rest with ⟨t', r'⟩
          rw [hr] at h
          simp only [consTrace] at h
          rw [Prod.mk.injEq] at h
          obtain ⟨ht, hres⟩ := h
          rw [ih st bs t' err (by rw [hr, hres])]
          simp [consTrace, ht]
        | some c =>
          cases h₄ : conn.select_by_hash st (hfn c) with
          | some r =>
            rw [index_directory_cons_found conn hfn pats st e rest c r h₁ h₂f h₃ h₄] at h
            rw [List.cons_append, index_directory_cons_found conn hfn pats st e (rest ++ bs) c r h₁ h₂f h₃ h₄]
            rcases hr : index_directory conn hfn pats st rest with ⟨t', r'⟩
            rw [hr] at h
            simp only [consTrace] at h
            rw [Prod.mk.injEq] at h
            obtain ⟨ht, hres⟩ := h
            rw [ih st bs t' err (by rw [hr, hres])]
            simp [consTrace, ht]
          | none =>
            cases h₅ : conn.insert_row st
                ⟨e.file_name, e.path, hfn c, e.size,
                  detect_category e.path (splitext_ext e.file_name)⟩ with
            | error err₂ =>
              rw [index_directory_cons_insert_err conn hfn pats st e rest c err₂ h₁ h₂f h₃ h₄ h₅] at h
              rw [List.cons_append,
                index_directory_cons_insert_err conn hfn pats st e (rest ++ bs) c err₂ h₁ h₂f h₃ h₄ h₅]
              exact h
            | ok st₂ =>
              rw [index_directory_cons_insert_ok conn hfn pats st st₂ e rest c h₁ h₂f h₃ h₄ h₅] at h
              rw [List.cons_append,
                index_directory_cons_insert_ok conn hfn pats st st₂ e (rest ++ bs) c h₁ h₂f h₃ h₄ h₅]
              rcases hr : index_directory conn hfn pats st₂ rest with ⟨t', r'⟩
              rw [hr] at h
              simp only [consTrace, consIns] at h
              rw [Prod.mk.injEq] at h
              obtain ⟨ht, hres⟩ := h
              cases r' with
              | error err₃ =>
                have herr : err₃ = err := by simpa [Except.map] using hres
                rw [ih st₂ bs t' err (by rw [hr, herr])]
                simp [consTrace, consIns, ht, Except.map]
              | ok x =>
                simp [Except.map] at hres

/-- Provenance of walk events: every `hashed` event in a run's trace belongs
to a visited file that is neither the pattern file nor excluded, and every
`lookedUp` or `inserted` event additionally belongs to a file whose bytes were
readable. -/
lemma index_directory_events (conn : Connection σ) (hfn : List Nat → String)
    (pats : List (String → Bool)) :
    ∀ (files : List FileEntry) (st : σ) (p : String),
      (Ev.hashed p ∈ (index_directory conn hfn pats st files).1 →
        ∃ e ∈ files, e.path = p ∧ e.file_name ≠ ".exclude_patterns" ∧
          should_exclude e.path pats = false) ∧
      (Ev.lookedUp p ∈ (index_directory conn hfn pats st files).1 →
        ∃ e ∈ files, e.path = p ∧ e.file_name ≠ ".exclude_patterns" ∧
          should_exclude e.path pats = false ∧ e.content ≠ none) ∧
      (Ev.inserted p ∈ (index_directory conn hfn pats st files).1 →
        ∃ e ∈ files, e.path = p ∧ e.file_name ≠ ".exclude_patterns" ∧
          should_exclude e.path pats = false ∧ e.content ≠ none) := by
  intro files
  induction files with
  | nil =>
    intro st p
    rw [index_directory_nil]
    simp
  | cons e rest ih =>
    intro st p
    by_cases h₁ : e.file_name = ".exclude_patterns"
    · rw [index_directory_cons_skipname conn hfn pats st e rest h₁]
      refine ⟨fun hm => ?_, fun hm => ?_, fun hm => ?_⟩
      · obtain ⟨f, hf, hrest⟩ := (ih st p).1 hm
        exact ⟨f, List.mem_cons_of_mem e hf, hrest⟩
      · obtain ⟨f, hf, hrest⟩ := (ih st p).2.1 hm
        exact ⟨f, List.mem_cons_of_mem e hf, hrest⟩
      · obtain ⟨f, hf, hrest⟩ := (ih st p).2.2 hm
        exact ⟨f, List.mem_cons_of_mem e hf, hrest⟩
    · by_cases h₂ : should_exclude e.path pats = true
      · rw [index_directory_cons_skipexcl conn hfn pats st e rest h₁ h₂]
        refine ⟨fun hm => ?_, fun hm => ?_, fun hm => ?_⟩
        · obtain ⟨f, hf, hrest⟩ := (ih st p).1 hm
          exact ⟨f, List.mem_cons_of_mem e hf, hrest⟩
        · obtain ⟨f, hf, hrest⟩ := (ih st p).2.1 hm
          exact ⟨f, List.mem_cons_of_mem e hf, hrest⟩
        · obtain ⟨f, hf, hrest⟩ := (ih st p).2.2 hm
          exact ⟨f, List.mem_cons_of_mem e hf, hrest⟩
      · have h₂f : should_exclude e.path pats = false := by simpa using h₂
        cases h₃ : e.content with
        | none =>
          rw [index_directory_cons_hashfail conn hfn pats st e rest h₁ h₂f h₃]
          simp only [consTrace, List.mem_cons]
          refine ⟨fun hm => ?_, fun hm => ?_, fun hm => ?_⟩
          · rcases hm with hev | hm
            · exact ⟨e, Or.inl rfl, (Ev.hashed.injEq .. ▸ hev).symm, h₁, h₂f⟩
            · obtain ⟨f, hf, hrest⟩ := (ih st p).1 hm
              exact ⟨f, Or.inr hf, hrest⟩
          · rcases hm with hev | hm
            · exact absurd hev (by simp)
            · obtain ⟨f, hf, hrest⟩ := (ih st p).2.1 hm
              exact ⟨f, Or.inr hf, hrest⟩
          · rcases hm with hev | hm
            · exact absurd hev (by simp)
            · obtain ⟨f, hf, hrest⟩ := (ih st p).2.2 hm
              exact ⟨f, Or.inr hf, hrest⟩
        | some c =>
          cases h₄ : conn.select_by_hash st (hfn c) with
          | some r =>
            rw [index_directory_cons_found conn hfn pats st e rest c r h₁ h₂f h₃ h₄]
            simp only [consTrace, List.mem_cons]
            refine ⟨fun hm => ?_, fun hm => ?_, fun hm => ?_⟩
            · rcases hm with hev | hev | hm
              · exact ⟨e, Or.inl rfl, (Ev.hashed.injEq .. ▸ hev).symm, h₁, h₂f⟩
              · exact absurd hev (by simp)
              · obtain ⟨f, hf, hrest⟩ := (ih st p).1 hm
                exact ⟨f, Or.inr hf, hrest⟩
            · rcases hm with hev | hev | hm
              · exact absurd hev (by simp)
              · exact ⟨e, Or.inl rfl, (Ev.lookedUp.injEq .. ▸ hev).symm, h₁, h₂f,
                  by simp [h₃]⟩
              · obtain ⟨f, hf, hrest⟩ := (ih st p).2.1 hm
                exact ⟨f, Or.inr hf, hrest⟩
            · rcases hm with hev | hev | hm
              · exact absurd hev (by simp)
              · exact absurd hev (by simp)
              · obtain ⟨f, hf, hrest⟩ := (ih st p).2.2 hm
                exact ⟨f, Or.inr hf, hrest⟩
          | none =>
            cases h₅ : conn.insert_row st
                ⟨e.file_name, e.path, hfn c, e.size,
                  detect_category e.path (splitext_ext e.file_name)⟩ with
            | error err =>
              rw [index_directory_cons_insert_err conn hfn pats st e rest c err h₁ h₂f h₃ h₄ h₅]
              simp only [List.mem_cons, List.mem_singleton]
              refine ⟨fun hm => ?_, fun hm => ?_, fun hm => ?_⟩
              · rcases hm with hev | hev | hm
                · exact ⟨e, Or.inl rfl, (Ev.hashed.injEq .. ▸ hev).symm, h₁, h₂f⟩
                · exact absurd hev (by simp)
                · exact absurd hm (by simp)
              · rcases hm with hev | hev | hm
                · exact absurd hev (by simp)
                · exact ⟨e, Or.inl rfl, (Ev.lookedUp.injEq .. ▸ hev).symm, h₁, h₂f,
                    by simp [h₃]⟩
                · exact absurd hm (by simp)
              · rcases hm with hev | hev | hm
                · exact absurd hev (by simp)
                · exact absurd hev (by simp)
                · exact absurd hm (by simp)
            | ok st₂ =>
              rw [index_directory_cons_insert_ok conn hfn pats st st₂ e rest c h₁ h₂f h₃ h₄ h₅]
              simp only [consTrace, consIns, List.mem_cons]
              refine ⟨fun hm => ?_, fun hm => ?_, fun hm => ?_⟩
              · rcases hm with hev | hev | hev | hm
                · exact ⟨e, Or.inl rfl, (Ev.hashed.injEq .. ▸ hev).symm, h₁, h₂f⟩
                · exact absurd hev (by simp)
                · exact absurd hev (by simp)
                · obtain ⟨f, hf, hrest⟩ := (ih st₂ p).1 hm
                  exact ⟨f, Or.inr hf, hrest⟩
              · rcases hm with hev | hev | hev | hm
                · exact absurd hev (by simp)
                · exact ⟨e, Or.inl rfl, (Ev.lookedUp.injEq .. ▸ hev).symm, h₁, h₂f,
                    by simp [h₃]⟩
                · exact absurd hev (by simp)
                · obtain ⟨f, hf, hrest⟩ := (ih st₂ p).2.1 hm
                  exact ⟨f, Or.inr hf, hrest⟩
              · rcases hm with hev | hev | hev | hm
                · exact absurd hev (by simp)
                · exact absurd hev (by simp)
                · exact ⟨e, Or.inl rfl, (Ev.inserted.injEq .. ▸ hev).symm, h₁, h₂f,
                    by simp [h₃]⟩
                · obtain ⟨f, hf, hrest⟩ := (ih st₂ p).2.2 hm
                  exact ⟨f, Or.inr hf, hrest⟩

/-- After a normal single-writer run, the hash of every processed file (not
the pattern file, not excluded, readable) is present in the final table:
either the lookup found it or the insert put it there. -/
lemma pg_hash_recorded (hfn : List Nat → String) (pats : List (String → Bool)) :
    ∀ (files : List FileEntry) (st : List Row) (tr : List Ev) (st₂ : List Row) (ins : List Row)
      (e : FileEntry) (c : List Nat),
      index_directory pgStore hfn pats st files = (tr, .ok (st₂, ins)) →
      e ∈ files → e.file_name ≠ ".exclude_patterns" → should_exclude e.path pats = false →
      e.content = some c → ∃ r ∈ st₂, r.md5_hash = hfn c := by
  intro files
  induction files with
  | nil =>
    intro st tr st₂ ins e c _ hmem
    exact absurd hmem (List.not_mem_nil e)
  | cons f rest ih =>
    intro st tr st₂ ins e c hrun hmem hname hexcl hcont
    by_cases h₁ : f.file_name = ".exclude_patterns"
    · rw [index_directory_cons_skipname pgStore hfn pats st f rest h₁] at hrun
      rcases List.mem_cons.mp hmem with rfl | hmem₂
      · exact absurd h₁ hname
      · exact ih st tr st₂ ins e c hrun hmem₂ hname hexcl hcont
    · by_cases h₂ : should_exclude f.path pats = true
      · rw [index_directory_cons_skipexcl pgStore hfn pats st f rest h₁ h₂] at hrun
        rcases List.mem_cons.mp hmem with rfl | hmem₂
        · rw [h₂] at hexcl
          exact absurd hexcl (by simp)
        · exact ih st tr st₂ ins e c hrun hmem₂ hname hexcl hcont
      · have h₂f : should_exclude f.path pats = false := by simpa using h₂
        cases h₃ : f.content with
        | none =>
          rw [index_directory_cons_hashfail pgStore hfn pats st f rest h₁ h₂f h₃] at hrun
          rcases hr : index_directory pgStore hfn pats st rest with ⟨t₃, r₃⟩
          rw [hr] at hrun
          simp only [consTrace] at hrun
          rw [Prod.mk.injEq] at hrun
          rcases List.mem_cons.mp hmem with rfl | hmem₂
          · rw [h₃] at hcont
            exact absurd hcont (by simp)
          · exact ih st t₃ st₂ ins e c (by rw [hr, hrun.2]) hmem₂ hname hexcl hcont
        | some c₂ =>
          cases h₄ : pgStore.select_by_hash st (hfn c₂) with
          | some r =>
            rw [index_directory_cons_found pgStore hfn pats st f rest c₂ r h₁ h₂f h₃ h₄] at hrun
            rcases hr : index_directory pgStore hfn pats st rest with ⟨t₃, r₃⟩
            rw [hr] at hrun
            simp only [consTrace] at hrun
            rw [Prod.mk.injEq] at hrun
            have hrest : index_directory pgStore hfn pats st rest = (t₃, .ok (st₂, ins)) := by
              rw [hr, hrun.2]
            rcases List.mem_cons.mp hmem with rfl | hmem₂
            · -- the lookup hit: the matching row is in `st`, which the final
              -- table extends
              rw [h₃] at hcont
              have hc : c₂ = c := by simpa using hcont
              have h₄f : st.find? (fun r₂ => r₂.md5_hash == hfn c₂) = some r := h₄
              have hrmem : r ∈ st := List.mem_of_find?_eq_some h₄f
              have hrhash := List.find?_some h₄f
              obtain ⟨t₄, ins₄, hshape⟩ := pg_run_ok hfn pats rest st
              rw [hshape] at hrest
              rw [Prod.mk.injEq] at hrest
              have hst : st₂ = st ++ ins₄ := by
                have := hrest.2
                simp only [Except.ok.injEq, Prod.mk.injEq] at this
                exact this.1.symm
              refine ⟨r, ?_, by rw [← hc]; simpa using hrhash⟩
              rw [hst]
              exact List.mem_append_left ins₄ hrmem
            · exact ih st t₃ st₂ ins e c hrest hmem₂ hname hexcl hcont
          | none =>
            cases h₅ : pgStore.insert_row st
                ⟨f.file_name, f.path, hfn c₂, f.size,
                  detect_category f.path (splitext_ext f.file_name)⟩ with
            | error err =>
              rw [index_directory_cons_insert_err pgStore hfn pats st f rest c₂ err
                h₁ h₂f h₃ h₄ h₅] at hrun
              rw [Prod.mk.injEq] at hrun
              exact absurd hrun.2 (by simp)
            | ok st₃ =>
              rw [index_directory_cons_insert_ok pgStore hfn pats st st₃ f rest c₂
                h₁ h₂f h₃ h₄ h₅] at hrun
              rcases hr : index_directory pgStore hfn pats st₃ rest with ⟨t₃, r₃⟩
              rw [hr] at hrun
              simp only [consTrace, consIns] at hrun
              rw [Prod.mk.injEq] at hrun
              cases r₃ with
              | error err => exact absurd hrun.2 (by simp [Except.map])
              | ok x =>
                have hrest : index_directory pgStore hfn pats st₃ rest = (t₃, .ok (x.1, x.2)) := by
                  rw [hr]
                have hx : st₂ = x.1 := by
                  have := hrun.2
                  simp only [Except.map, Except.ok.injEq, Prod.mk.injEq] at this
                  exact this.1.symm
                have hst₃ : st₃ = st ++ [⟨f.file_name, f.path, hfn c₂, f.size,
                    detect_category f.path (splitext_ext f.file_name)⟩] := by
                  have h₅2 := h₅
                  simp only [pgStore] at h₅2
                  by_cases hany : st.any
                      (fun r₂ => r₂.md5_hash ==
                        (⟨f.file_name, f.path, hfn c₂, f.size,
                          detect_category f.path (splitext_ext f.file_name)⟩ : Row).md5_hash) = true
                  · rw [if_pos hany] at h₅2
                    exact absurd h₅2 (by simp)
                  · rw [if_neg hany] at h₅2
                    simpa using h₅2.symm
                rcases List.mem_cons.mp hmem with rfl | hmem₂
                · -- the processed head was inserted; its row survives into the
                  -- final table because the rest of the run only appends
                  rw [h₃] at hcont
                  have hc : c₂ = c := by simpa using hcont
                  obtain ⟨t₄, ins₄, hshape⟩ := pg_run_ok hfn pats rest st₃
                  rw [hshape] at hrest
                  rw [Prod.mk.injEq] at hrest
                  have hst : x.1 = st₃ ++ ins₄ := by
                    have := hrest.2
                    simp only [Except.ok.injEq, Prod.mk.injEq] at this
                    exact this.1.symm
                  refine ⟨⟨e.file_name, e.path, hfn c₂, e.size,
                    detect_category e.path (splitext_ext e.file_name)⟩, ?_, by rw [hc]⟩
                  rw [hx, hst, hst₃]
                  exact List.mem_append_left ins₄ (List.mem_append_right st (by simp))
                · rw [hx]
                  exact ih st₃ t₃ x.1 x.2 e c hrest hmem₂ hname hexcl hcont

/-- If every processable file's hash is already present in the table, a run
leaves the table unchanged and inserts nothing (each lookup hits). -/
lemma pg_run_no_new (hfn : List Nat → String) (pats : List (String → Bool)) :
    ∀ (files : List FileEntry) (st : List Row),
      (∀ e ∈ files, e.file_name ≠ ".exclude_patterns" → should_exclude e.path pats = false →
        ∀ c, e.content = some c → ∃ r ∈ st, r.md5_hash = hfn c) →
      ∃ tr, index_directory pgStore hfn pats st files = (tr, .ok (st, [])) := by
  intro files
  induction files with
  | nil =>
    intro st _
    exact ⟨[], index_directory_nil pgStore hfn pats st⟩
  | cons e rest ih =>
    intro st hall
    have hrest : ∀ f ∈ rest, f.file_name ≠ ".exclude_patterns" →
        should_exclude f.path pats = false → ∀ c, f.content = some c →
        ∃ r ∈ st, r.md5_hash = hfn c :=
      fun f hf => hall f (List.mem_cons_of_mem e hf)
    by_cases h₁ : e.file_name = ".exclude_patterns"
    · obtain ⟨tr, hrun⟩ := ih st hrest
      exact ⟨tr, by rw [index_directory_cons_skipname pgStore hfn pats st e rest h₁, hrun]⟩
    · by_cases h₂ : should_exclude e.path pats = true
      · obtain ⟨tr, hrun⟩ := ih st hrest
        exact ⟨tr, by rw [index_directory_cons_skipexcl pgStore hfn pats st e rest h₁ h₂, hrun]⟩
      · have h₂f : should_exclude e.path pats = false := by simpa using h₂
        cases h₃ : e.content with
        | none =>
          obtain ⟨tr, hrun⟩ := ih st hrest
          refine ⟨.hashed e.path :: tr, ?_⟩
          rw [index_directory_cons_hashfail pgStore hfn pats st e rest h₁ h₂f h₃, hrun]
          rfl
        | some c =>
          obtain ⟨r, hrmem, hrhash⟩ := hall e (List.mem_cons_self e rest) h₁ h₂f c h₃
          have hsome : (st.find? (fun r₂ => r₂.md5_hash == hfn c)).isSome := by
            rw [List.find?_isSome]
            exact ⟨r, hrmem, by simp [hrhash]⟩
          obtain ⟨r₂, hfind⟩ := Option.isSome_iff_exists.mp hsome
          have h₄ : pgStore.select_by_hash st (hfn c) = some r₂ := hfind
          obtain ⟨tr, hrun⟩ := ih st hrest
          refine ⟨.hashed e.path :: .lookedUp e.path :: tr, ?_⟩
          rw [index_directory_cons_found pgStore hfn pats st e rest c r₂ h₁ h₂f h₃ h₄, hrun]
          rfl

/-- Composing a walk: if the first segment returns normally, the walk of the
concatenation continues the second segment from the state the first one
reached, concatenating traces and insert lists. -/
lemma index_directory_append_ok (conn : Connection σ) (hfn : List Nat → String)
    (pats : List (String → Bool)) :
    ∀ (as : List FileEntry) (st : σ) (bs : List FileEntry) (t₁ : List Ev) (st₁ : σ)
      (i₁ : List Row),
      index_directory conn hfn pats st as = (t₁, .ok (st₁, i₁)) →
      index_directory conn hfn pats st (as ++ bs) =
        (t₁ ++ (index_directory conn hfn pats st₁ bs).1,
         (index_directory conn hfn pats st₁ bs).2.map (fun x => (x.1, i₁ ++ x.2))) := by
  intro as
  induction as with
  | nil =>
    intro st bs t₁ st₁ i₁ h
    rw [index_directory_nil] at h
    rw [Prod.mk.injEq] at h
    obtain ⟨ht, hres⟩ := h
    simp only [Except.ok.injEq, Prod.mk.injEq] at hres
    subst ht
    obtain ⟨hst, hins⟩ := hres
    subst hst
    subst hins
    rcases hb : index_directory conn hfn pats st bs with ⟨t₂, r₂⟩
    cases r₂ with
    | error err => simp [Except.map, hb]
    | ok x => simp [Except.map, hb]
  | cons e rest ih =>
    intro st bs t₁ st₁ i₁ h
    by_cases h₁ : e.file_name = ".exclude_patterns"
    · rw [index_directory_cons_skipname conn hfn pats st e rest h₁] at h
      rw [List.cons_append, index_directory_cons_skipname conn hfn pats st e (rest ++ bs) h₁]
      exact ih st bs t₁ st₁ i₁ h
    · by_cases h₂ : should_exclude e.path pats = true
      · rw [index_directory_cons_skipexcl conn hfn pats st e rest h₁ h₂] at h
        rw [List.cons_append, index_directory_cons_skipexcl conn hfn pats st e (rest ++ bs) h₁ h₂]
        exact ih st bs t₁ st₁ i₁ h
      · have h₂f : should_exclude e.path pats = false := by simpa using h₂
        cases h₃ : e.content with
        | none =>
          rw [index_directory_cons_hashfail conn hfn pats st e rest h₁ h₂f h₃] at h
          rw [List.cons_append,
            index_directory_cons_hashfail conn hfn pats st e (rest ++ bs) h₁ h₂f h₃]
          rcases hr : index_directory conn hfn pats st rest with ⟨t₃, r₃⟩
          rw [hr] at h
          simp only [consTrace] at h
          rw [Prod.mk.injEq] at h
          obtain ⟨ht, hres⟩ := h
          rw [ih st bs t₃ st₁ i₁ (by rw [hr, hres])]
          simp [consTrace, ← ht]
        | some c =>
          cases h₄ : conn.select_by_hash st (hfn c) with
          | some r =>
            rw [index_directory_cons_found conn hfn pats st e rest c r h₁ h₂f h₃ h₄] at h
            rw [List.cons_append,
              index_directory_cons_found conn hfn pats st e (rest ++ bs) c r h₁ h₂f h₃ h₄]
            rcases hr : index_directory conn hfn pats st rest with ⟨t₃, r₃⟩
            rw [hr] at h
            simp only [consTrace] at h
            rw [Prod.mk.injEq] at h
            obtain ⟨ht, hres⟩ := h
            rw [ih st bs t₃ st₁ i₁ (by rw [hr, hres])]
            simp [consTrace, ← ht]
          | none =>
            cases h₅ : conn.insert_row st
                ⟨e.file_name, e.path, hfn c, e.size,
                  detect_category e.path (splitext_ext e.file_name)⟩ with
            | error err =>
              rw [index_directory_cons_insert_err conn hfn pats st e rest c err
                h₁ h₂f h₃ h₄ h₅] at h
              rw [Prod.mk.injEq] at h
              exact absurd h.2 (by simp)
            | ok st₂ =>
              rw [index_directory_cons_insert_ok conn hfn pats st st₂ e rest c
                h₁ h₂f h₃ h₄ h₅] at h
              rw [List.cons_append,
                index_directory_cons_insert_ok conn hfn pats st st₂ e (rest ++ bs) c
                  h₁ h₂f h₃ h₄ h₅]
              rcases hr : index_directory conn hfn pats st₂ rest with ⟨t₃, r₃⟩
              rw [hr] at h
              simp only [consTrace, consIns] at h
              rw [Prod.mk.injEq] at h
              obtain ⟨ht, hres⟩ := h
              cases r₃ with
              | error err => exact absurd hres (by simp [Except.map])
              | ok x =>
                have hx : st₁ = x.1 ∧ i₁ =
                    ⟨e.file_name, e.path, hfn c, e.size,
                      detect_category e.path (splitext_ext e.file_name)⟩ :: x.2 := by
                  simp only [Except.map, Except.ok.injEq, Prod.mk.injEq] at hres
                  exact ⟨hres.1.symm, hres.2.symm⟩
                rw [ih st₂ bs t₃ x.1 x.2 (by rw [hr])]
                rcases hbs : index_directory conn hfn pats x.1 bs with ⟨t₄, r₄⟩
                cases r₄ with
                | error err =>
                  simp [consTrace, consIns, Except.map, ← ht, hx.1, hx.2, hbs]
                | ok y =>
                  simp [consTrace, consIns, Except.map, ← ht, hx.1, hx.2, hbs]

/-- CLAIM C2: in any single-writer run, a later processed file with the same
byte content as an earlier processed one is never inserted (the lookup finds
the hash the first one left in the table), and a rerun of any file list
against the table a normal run produced inserts zero new rows and leaves the
table unchanged. -/
theorem dedup_first_wins_and_idempotent
    (hfn : List Nat → String) (pats : List (String → Bool)) (st : List Row)
    (xs ys zs : List FileEntry) (e₁ e₂ : FileEntry) (c : List Nat)
    (hnodup : ((xs ++ e₁ :: ys ++ e₂ :: zs).map FileEntry.path).Nodup)
    (h₁n : e₁.file_name ≠ ".exclude_patterns") (h₁x : should_exclude e₁.path pats = false)
    (h₁c : e₁.content = some c)
    (h₂n : e₂.file_name ≠ ".exclude_patterns") (h₂x : should_exclude e₂.path pats = false)
    (h₂c : e₂.content = some c) :
    Ev.inserted e₂.path ∉ (index_directory pgStore hfn pats st (xs ++ e₁ :: ys ++ e₂ :: zs)).1 ∧
    (∀ (files : List FileEntry) (tr : List Ev) (st₂ ins : List Row),
      index_directory pgStore hfn pats st files = (tr, .ok (st₂, ins)) →
      ∃ tr₂, index_directory pgStore hfn pats st₂ files = (tr₂, .ok (st₂, []))) := by
  constructor
  · have hsplit : xs ++ e₁ :: ys ++ e₂ :: zs = (xs ++ e₁ :: ys) ++ e₂ :: zs := by
      simp
    rw [hsplit] at hnodup ⊢
    rw [List.map_append, List.map_cons] at hnodup
    obtain ⟨hA, hB, hdisj⟩ := List.nodup_append.mp hnodup
    obtain ⟨t₁, i₁, h₁run⟩ := pg_run_ok hfn pats (xs ++ e₁ :: ys) st
    have hmem₁ : e₁ ∈ xs ++ e₁ :: ys := List.mem_append_right xs (List.mem_cons_self e₁ ys)
    obtain ⟨r, hrmem, hrhash⟩ := pg_hash_recorded hfn pats (xs ++ e₁ :: ys) st t₁ (st ++ i₁)
      i₁ e₁ c h₁run hmem₁ h₁n h₁x h₁c
    have hsome : ((st ++ i₁).find? (fun r₂ => r₂.md5_hash == hfn c)).isSome := by
      rw [List.find?_isSome]
      exact ⟨r, hrmem, by simp [hrhash]⟩
    obtain ⟨r₂, hfind⟩ := Option.isSome_iff_exists.mp hsome
    have h₄ : pgStore.select_by_hash (st ++ i₁) (hfn c) = some r₂ := hfind
    rw [index_directory_append_ok pgStore hfn pats (xs ++ e₁ :: ys) st (e₂ :: zs) t₁
      (st ++ i₁) i₁ h₁run]
    rw [index_directory_cons_found pgStore hfn pats (st ++ i₁) e₂ zs c r₂ h₂n h₂x h₂c h₄]
    intro hm
    simp only [consTrace, List.mem_append, List.mem_cons] at hm
    rcases hm with hin₁ | hev | hev | hin₂
    · obtain ⟨f, hf, hfp, hfname, hfexcl⟩ :=
        (index_directory_events pgStore hfn pats (xs ++ e₁ :: ys) st e₂.path).2.2
          (by rw [h₁run]; exact hin₁)
      have hfA : f.path ∈ (xs ++ e₁ :: ys).map FileEntry.path := List.mem_map_of_mem _ hf
      have : f.path ∉ e₂.path :: (zs.map FileEntry.path) := hdisj hfA
      exact this (by rw [hfp]; exact List.mem_cons_self _ _)
    · exact absurd hev (by simp)
    · exact absurd hev (by simp)
    · obtain ⟨f, hf, hfp, hfname, hfexcl⟩ :=
        (index_directory_events pgStore hfn pats zs (st ++ i₁) e₂.path).2.2 hin₂
      have hpath₂ : e₂.path ∉ zs.map FileEntry.path := (List.nodup_cons.mp hB).1
      exact hpath₂ (by rw [← hfp]; exact List.mem_map_of_mem _ hf)
  · intro files tr st₂ ins hrun
    exact pg_run_no_new hfn pats files st₂
      (fun e he hn hx c₂ hc => pg_hash_recorded hfn pats files st tr st₂ ins e c₂ hrun he hn hx hc)

/-- Witness for C2: two files with identical content `[7]`; the second is not
inserted, and any rerun against the produced table inserts nothing. -/
theorem dedup_first_wins_and_idempotent_witness :
    Ev.inserted "/d/backup/b.mp4" ∉
      (index_directory pgStore (fun c => toString c) [] []
        ([⟨"r.txt", "/d/r.txt", 1, some [0]⟩] ++ ⟨"a.mp4", "/d/movies/a.mp4", 5, some [7]⟩ ::
          ([] ++ ⟨"b.mp4", "/d/backup/b.mp4", 5, some [7]⟩ :: []))).1 ∧
    (∀ (files : List FileEntry) (tr : List Ev) (st₂ ins : List Row),
      index_directory pgStore (fun c => toString c) [] [] files = (tr, .ok (st₂, ins)) →
      ∃ tr₂, index_directory pgStore (fun c => toString c) [] st₂ files = (tr₂, .ok (st₂, []))) :=
  dedup_first_wins_and_idempotent (fun c => toString c) [] []
    [⟨"r.txt", "/d/r.txt", 1, some [0]⟩] [] []
    ⟨"a.mp4", "/d/movies/a.mp4", 5, some [7]⟩ ⟨"b.mp4", "/d/backup/b.mp4", 5, some [7]⟩ [7]
    (by decide) (by decide) (by decide) (by decide) (by decide) (by decide) (by decide)

/-- CLAIM C4: a file matching a loaded exclusion pattern, or named
`.exclude_patterns`, is never hashed, never looked up, and never inserted, in
any run over any connection. -/
theorem excluded_files_untouched {σ : Type} (conn : Connection σ) (hfn : List Nat → String)
    (pats : List (String → Bool)) (st : σ) (files : List FileEntry) (e : FileEntry)
    (hmem : e ∈ files)
    (hskip : e.file_name = ".exclude_patterns" ∨ should_exclude e.path pats = true)
    (hnodup : (files.map FileEntry.path).Nodup) :
    Ev.hashed e.path ∉ (index_directory conn hfn pats st files).1 ∧
    Ev.lookedUp e.path ∉ (index_directory conn hfn pats st files).1 ∧
    Ev.inserted e.path ∉ (index_directory conn hfn pats st files).1 := by
  have huniq : ∀ f ∈ files, f.path = e.path → f = e := by
    intro f hf hfp
    exact List.inj_on_of_nodup_map hnodup hf hmem hfp
  have hcontra : ∀ f, f = e → f.file_name ≠ ".exclude_patterns" →
      should_exclude f.path pats = false → False := by
    intro f hfe hfname hfexcl
    subst hfe
    rcases hskip with h | h
    · exact hfname h
    · rw [h] at hfexcl
      exact absurd hfexcl (by simp)
  refine ⟨fun hm => ?_, fun hm => ?_, fun hm => ?_⟩
  · obtain ⟨f, hf, hfp, hfname, hfexcl⟩ :=
      (index_directory_events conn hfn pats files st e.path).1 hm
    exact hcontra f (huniq f hf hfp) hfname hfexcl
  · obtain ⟨f, hf, hfp, hfname, hfexcl, _⟩ :=
      (index_directory_events conn hfn pats files st e.path).2.1 hm
    exact hcontra f (huniq f hf hfp) hfname hfexcl
  · obtain ⟨f, hf, hfp, hfname, hfexcl, _⟩ :=
      (index_directory_events conn hfn pats files st e.path).2.2 hm
    exact hcontra f (huniq f hf hfp) hfname hfexcl

/-- Witness for C4: a `.tmp` file matching the single pattern is untouched by
the run. -/
theorem excluded_files_untouched_witness :
    Ev.hashed "/d/x.tmp" ∉
      (index_directory pgStore (fun c => toString c) [fun s => pyIn ".tmp" s] []
        [⟨"x.tmp", "/d/x.tmp", 2, some [1]⟩, ⟨"y.txt", "/d/y.txt", 2, some [2]⟩]).1 ∧
    Ev.lookedUp "/d/x.tmp" ∉
      (index_directory pgStore (fun c => toString c) [fun s => pyIn ".tmp" s] []
        [⟨"x.tmp", "/d/x.tmp", 2, some [1]⟩, ⟨"y.txt", "/d/y.txt", 2, some [2]⟩]).1 ∧
    Ev.inserted "/d/x.tmp" ∉
      (index_directory pgStore (fun c => toString c) [fun s => pyIn ".tmp" s] []
        [⟨"x.tmp", "/d/x.tmp", 2, some [1]⟩, ⟨"y.txt", "/d/y.txt", 2, some [2]⟩]).1 :=
  excluded_files_untouched pgStore (fun c => toString c) [fun s => pyIn ".tmp" s] []
    [⟨"x.tmp", "/d/x.tmp", 2, some [1]⟩, ⟨"y.txt", "/d/y.txt", 2, some [2]⟩]
    ⟨"x.tmp", "/d/x.tmp", 2, some [1]⟩
    (by decide) (Or.inr (by decide)) (by decide)

/-- CLAIM C5: a file whose hash computation fails is only skipped: it is never
looked up or inserted, and the run result (statement outcome, final store and
inserted rows) is exactly that of the same walk without that file. -/
theorem hash_failure_skips_only_that_file {σ : Type} (conn : Connection σ)
    (hfn : List Nat → String) (pats : List (String → Bool)) (st : σ)
    (xs ys : List FileEntry) (e : FileEntry)
    (hc : e.content = none) (hn : e.file_name ≠ ".exclude_patterns")
    (hx : should_exclude e.path pats = false)
    (hnodup : ((xs ++ e :: ys).map FileEntry.path).Nodup) :
    (index_directory conn hfn pats st (xs ++ e :: ys)).2 =
      (index_directory conn hfn pats st (xs ++ ys)).2 ∧
    Ev.lookedUp e.path ∉ (index_directory conn hfn pats st (xs ++ e :: ys)).1 ∧
    Ev.inserted e.path ∉ (index_directory conn hfn pats st (xs ++ e :: ys)).1 := by
  have huniq : ∀ f ∈ xs ++ e :: ys, f.path = e.path → f = e := by
    intro f hf hfp
    exact List.inj_on_of_nodup_map hnodup hf (List.mem_append_right xs (List.mem_cons_self e ys)) hfp
  refine ⟨?_, fun hm => ?_, fun hm => ?_⟩
  · rcases hxs : index_directory conn hfn pats st xs with ⟨t₁, r₁⟩
    cases r₁ with
    | error err =>
      rw [index_directory_append_err conn hfn pats xs st (e :: ys) t₁ err hxs,
        index_directory_append_err conn hfn pats xs st ys t₁ err hxs]
    | ok x =>
      rw [index_directory_append_ok conn hfn pats xs st (e :: ys) t₁ x.1 x.2 (by rw [hxs]),
        index_directory_append_ok conn hfn pats xs st ys t₁ x.1 x.2 (by rw [hxs])]
      rw [index_directory_cons_hashfail conn hfn pats x.1 e ys hn hx hc]
      rfl
  · obtain ⟨f, hf, hfp, _, _, hfc⟩ :=
      (index_directory_events conn hfn pats (xs ++ e :: ys) st e.path).2.1 hm
    have := huniq f hf hfp
    subst this
    exact hfc hc
  · obtain ⟨f, hf, hfp, _, _, hfc⟩ :=
      (index_directory_events conn hfn pats (xs ++ e :: ys) st e.path).2.2 hm
    have := huniq f hf hfp
    subst this
    exact hfc hc

/-- Witness for C5: an unreadable file between two readable ones is skipped
and the run result equals the run without it. -/
theorem hash_failure_skips_only_that_file_witness :
    (index_directory pgStore (fun c => toString c) [] []
      ([⟨"a.txt", "/d/a.txt", 1, some [1]⟩] ++ ⟨"b.txt", "/d/b.txt", 1, none⟩ ::
        [⟨"c.txt", "/d/c.txt", 1, some [3]⟩])).2 =
      (index_directory pgStore (fun c => toString c) [] []
        ([⟨"a.txt", "/d/a.txt", 1, some [1]⟩] ++ [⟨"c.txt", "/d/c.txt", 1, some [3]⟩])).2 ∧
    Ev.lookedUp "/d/b.txt" ∉
      (index_directory pgStore (fun c => toString c) [] []
        ([⟨"a.txt", "/d/a.txt", 1, some [1]⟩] ++ ⟨"b.txt", "/d/b.txt", 1, none⟩ ::
          [⟨"c.txt", "/d/c.txt", 1, some [3]⟩])).1 ∧
    Ev.inserted "/d/b.txt" ∉
      (index_directory pgStore (fun c => toString c) [] []
        ([⟨"a.txt", "/d/a.txt", 1, some [1]⟩] ++ ⟨"b.txt", "/d/b.txt", 1, none⟩ ::
          [⟨"c.txt", "/d/c.txt", 1, some [3]⟩])).1 :=
  hash_failure_skips_only_that_file pgStore (fun c => toString c) [] []
    [⟨"a.txt", "/d/a.txt", 1, some [1]⟩] [⟨"c.txt", "/d/c.txt", 1, some [3]⟩]
    ⟨"b.txt", "/d/b.txt", 1, none⟩
    (by decide) (by decide) (by decide) (by decide)

/-- `connection.close()` is not among the walk's own events. -/
lemma index_directory_no_closed (conn : Connection σ) (hfn : List Nat → String)
    (pats : List (String → Bool)) :
    ∀ (files : List FileEntry) (st : σ),
      Ev.closed ∉ (index_directory conn hfn pats st files).1 := by
  intro files
  induction files with
  | nil =>
    intro st
    rw [index_directory_nil]
    simp
  | cons e rest ih =>
    intro st
    by_cases h₁ : e.file_name = ".exclude_patterns"
    · rw [index_directory_cons_skipname conn hfn pats st e rest h₁]
      exact ih st
    · by_cases h₂ : should_exclude e.path pats = true
      · rw [index_directory_cons_skipexcl conn hfn pats st e rest h₁ h₂]
        exact ih st
      · have h₂f : should_exclude e.path pats = false := by simpa using h₂
        cases h₃ : e.content with
        | none =>
          rw [index_directory_cons_hashfail conn hfn pats st e rest h₁ h₂f h₃]
          simp only [consTrace, List.mem_cons]
          rintro (h | h)
          · exact absurd h (by simp)
          · exact ih st h
        | some c =>
          cases h₄ : conn.select_by_hash st (hfn c) with
          | some r =>
            rw [index_directory_cons_found conn hfn pats st e rest c r h₁ h₂f h₃ h₄]
            simp only [consTrace, List.mem_cons]
            rintro (h | h | h)
            · exact absurd h (by simp)
            · exact absurd h (by simp)
            · exact ih st h
          | none =>
            cases h₅ : conn.insert_row st
                ⟨e.file_name, e.path, hfn c, e.size,
                  detect_category e.path (splitext_ext e.file_name)⟩ with
            | error err =>
              rw [index_directory_cons_insert_err conn hfn pats st e rest c err h₁ h₂f h₃ h₄ h₅]
              simp
            | ok st₂ =>
              rw [index_directory_cons_insert_ok conn hfn pats st st₂ e rest c h₁ h₂f h₃ h₄ h₅]
              simp only [consTrace, consIns, List.mem_cons]
              rintro (h | h | h | h)
              · exact absurd h (by simp)
              · exact absurd h (by simp)
              · exact absurd h (by simp)
              · exact ih st₂ h

/-- CLAIM C1 counterexample: with a store raising the UNIQUE violation at
insert time (the race the spec itself describes: the lookup missed, a
concurrent writer inserted the hash first), the error propagates out of the
walk — the run aborts and the second file is never visited — contradicting
"skip this file, not fatal". -/
theorem constraint_violation_aborts_run_concrete :
    (index_directory racedConn (fun _ => "h") [] ()
        [⟨"a.txt", "/d/a.txt", 3, some [1]⟩, ⟨"b.txt", "/d/b.txt", 3, some [2]⟩]).2 =
      .error .constraintViolation ∧
    Ev.hashed "/d/b.txt" ∉
      (index_directory racedConn (fun _ => "h") [] ()
        [⟨"a.txt", "/d/a.txt", 3, some [1]⟩, ⟨"b.txt", "/d/b.txt", 3, some [2]⟩]).1 :=
  ⟨rfl, by decide⟩

/-- CLAIM C1 (amended): hash failures are skipped per-file (see
`hash_failure_skips_only_that_file`), but an insert-time failure such as a
`ConstraintViolation` is not: the `INSERT` is wrapped in no `try/except`, so
the exception ends the run at that file and the remaining files are not
walked. -/
theorem insert_failure_propagates {σ : Type} (conn : Connection σ)
    (hfn : List Nat → String) (pats : List (String → Bool)) (st : σ)
    (xs ys : List FileEntry) (e : FileEntry) (t₁ : List Ev) (st₁ : σ) (i₁ : List Row)
    (c : List Nat) (err : DBErr)
    (hxs : index_directory conn hfn pats st xs = (t₁, .ok (st₁, i₁)))
    (hn : e.file_name ≠ ".exclude_patterns") (hx : should_exclude e.path pats = false)
    (hc : e.content = some c)
    (hsel : conn.select_by_hash st₁ (hfn c) = none)
    (hins : conn.insert_row st₁ ⟨e.file_name, e.path, hfn c, e.size,
        detect_category e.path (splitext_ext e.file_name)⟩ = .error err) :
    index_directory conn hfn pats st (xs ++ e :: ys) =
      (t₁ ++ [Ev.hashed e.path, Ev.lookedUp e.path], .error err) := by
  rw [index_directory_append_ok conn hfn pats xs st (e :: ys) t₁ st₁ i₁ hxs]
  rw [index_directory_cons_insert_err conn hfn pats st₁ e ys c err hn hx hc hsel hins]
  simp [Except.map]

/-- Witness for the amended C1 at a concrete raced store. -/
theorem insert_failure_propagates_witness :
    racedConn.insert_row ()
        ⟨"a.txt", "/d/a.txt", "h", 3, detect_category "/d/a.txt" (splitext_ext "a.txt")⟩ =
      .error .constraintViolation ∧
    index_directory racedConn (fun _ => "h") [] ()
        ([] ++ ⟨"a.txt", "/d/a.txt", 3, some [1]⟩ :: [⟨"b.txt", "/d/b.txt", 3, some [2]⟩]) =
      ([] ++ [Ev.hashed "/d/a.txt", Ev.lookedUp "/d/a.txt"], .error .constraintViolation) :=
  ⟨rfl,
    insert_failure_propagates racedConn (fun _ => "h") [] () []
      [⟨"b.txt", "/d/b.txt", 3, some [2]⟩] ⟨"a.txt", "/d/a.txt", 3, some [1]⟩ [] () []
      [1] .constraintViolation rfl (by decide) (by decide) rfl rfl rfl⟩

/-- CLAIM C3 counterexample: schema creation fails, yet the run proceeds to
load patterns, walk, hash, look up, insert, and completes — nothing is
aborted. -/
theorem schema_failure_not_fatal_concrete :
    indexer (.ok ((pgStore : Connection (List Row)), ([] : List Row))) (.error ())
        (fun _ => fun _ => false) none (fun _ => "h") [⟨"a.txt", "/d/a.txt", 3, some [1]⟩] =
      ([Ev.schemaError, Ev.patternsLoaded, Ev.hashed "/d/a.txt", Ev.lookedUp "/d/a.txt",
        Ev.inserted "/d/a.txt", Ev.closed], .completed 1) := rfl

/-- CLAIM C3 (amended): a failure in `_create_database` is caught there,
logged at critical severity, and swallowed; the run then behaves exactly as if
schema creation had succeeded — it still loads patterns and walks. -/
theorem schema_failure_run_continues {σ : Type} (conn : Connection σ) (st : σ)
    (re_compile : String → (String → Bool))
    (pattern_file : Option (Except Unit (List String)))
    (hfn : List Nat → String) (files : List FileEntry) :
    (indexer (.ok (conn, st)) (.error ()) re_compile pattern_file hfn files).2 =
      (indexer (.ok (conn, st)) (.ok ()) re_compile pattern_file hfn files).2 ∧
    (indexer (.ok (conn, st)) (.error ()) re_compile pattern_file hfn files).1.drop 1 =
      (indexer (.ok (conn, st)) (.ok ()) re_compile pattern_file hfn files).1.drop 1 ∧
    Ev.patternsLoaded ∈
      (indexer (.ok (conn, st)) (.error ()) re_compile pattern_file hfn files).1 := by
  unfold indexer create_database
  rcases hr : index_directory conn hfn (load_exclusion_patterns re_compile pattern_file)
      st files with ⟨tr, r⟩
  cases r with
  | error err => simp [hr]
  | ok x => simp [hr]

/-- CLAIM C8: loading exclusion patterns never fails: a missing file and a
file whose read raises both yield the empty pattern list, and an existing
file contributes exactly one compiled pattern per line whose strip is
non-blank, namely the compilation of that stripped line. -/
theorem load_exclusion_patterns_spec {α : Type} (re_compile : String → α)
    (er : Unit) (lines : List String) :
    load_exclusion_patterns re_compile none = ([] : List α) ∧
    load_exclusion_patterns re_compile (some (.error er)) = ([] : List α) ∧
    load_exclusion_patterns re_compile (some (.ok lines)) =
      ((lines.map pyStrip).filter (fun l => l != "")).map re_compile := by
  refine ⟨rfl, rfl, ?_⟩
  show (lines.filter (fun line => pyStrip line != "")).map (fun line => re_compile (pyStrip line)) =
    ((lines.map pyStrip).filter (fun l => l != "")).map re_compile
  rw [List.filter_map, List.map_map]
  rfl

/-- CLAIM C9 counterexample: the store connection is opened, the walk raises
at the first insert, and the run ends without ever reaching
`connection.close()` — the connection is not released on this exit path. -/
theorem raised_run_not_closed_concrete :
    indexer (.ok ((racedConn : Connection Unit), ())) (.ok ())
        (fun _ => fun _ => false) none (fun _ => "h") [⟨"a.txt", "/d/a.txt", 3, some [1]⟩] =
      ([Ev.schemaCreated, Ev.patternsLoaded, Ev.hashed "/d/a.txt", Ev.lookedUp "/d/a.txt"],
        .raised .constraintViolation) ∧
    Ev.closed ∉
      (indexer (.ok ((racedConn : Connection Unit), ())) (.ok ())
        (fun _ => fun _ => false) none (fun _ => "h")
        [⟨"a.txt", "/d/a.txt", 3, some [1]⟩]).1 :=
  ⟨rfl, by decide⟩

/-- CLAIM C9 (amended): `connection.close()` is the plain last statement of
`indexer`, not a `finally`: when the walk returns normally the connection is
closed exactly once, and when the walk raises the run ends without closing. -/
theorem close_called_iff_walk_returns {σ : Type} (conn : Connection σ) (st : σ)
    (schema_result : Except Unit Unit) (re_compile : String → (String → Bool))
    (pattern_file : Option (Except Unit (List String)))
    (hfn : List Nat → String) (files : List FileEntry) :
    (∀ (st₂ : σ) (ins : List Row),
      (index_directory conn hfn (load_exclusion_patterns re_compile pattern_file)
          st files).2 = .ok (st₂, ins) →
      (indexer (.ok (conn, st)) schema_result re_compile pattern_file hfn
          files).1.count Ev.closed = 1) ∧
    (∀ err : DBErr,
      (index_directory conn hfn (load_exclusion_patterns re_compile pattern_file)
          st files).2 = .error err →
      Ev.closed ∉
        (indexer (.ok (conn, st)) schema_result re_compile pattern_file hfn files).1) := by
  rcases hr : index_directory conn hfn (load_exclusion_patterns re_compile pattern_file)
      st files with ⟨tr, r⟩
  have hnc : Ev.closed ∉ tr := by
    have h := index_directory_no_closed conn hfn
      (load_exclusion_patterns re_compile pattern_file) files st
    rw [hr] at h
    exact h
  constructor
  · intro st₂ ins hok
    simp only at hok
    subst hok
    cases schema_result with
    | ok u =>
      simp [indexer, hr, create_database, List.count_append, List.count_cons,
        List.count_eq_zero.mpr hnc]
    | error u =>
      simp [indexer, hr, create_database, List.count_append, List.count_cons,
        List.count_eq_zero.mpr hnc]
  · intro err herr
    simp only at herr
    subst herr
    cases schema_result with
    | ok u => simp [indexer, hr, create_database, hnc]
    | error u => simp [indexer, hr, create_database, hnc]

/-- Witness for the amended C9: one readable file against the single-writer
store; the walk returns normally and the trace contains exactly one close. -/
theorem close_called_iff_walk_returns_witness :
    (indexer (.ok ((pgStore : Connection (List Row)), ([] : List Row))) (.ok ())
        (fun _ => fun _ => false) none (fun _ => "h")
        [⟨"a.txt", "/d/a.txt", 3, some [1]⟩]).1.count Ev.closed = 1 :=
  (close_called_iff_walk_returns pgStore [] (.ok ()) (fun _ => fun _ => false) none
      (fun _ => "h") [⟨"a.txt", "/d/a.txt", 3, some [1]⟩]).1
    [⟨"a.txt", "/d/a.txt", "h", 3, "plaintext"⟩]
    [⟨"a.txt", "/d/a.txt", "h", 3, "plaintext"⟩] rfl
